import Mathlib

/-!
Verification of the file-discovery-and-tree-rendering engine of the
`mdbook-files` preprocessor (`src/lib.rs`).

Shallow embedding conventions:

* `camino::Utf8PathBuf` is modelled as `Path := List String`, the list of path
  components; `Ord` on `Utf8PathBuf` compares component-wise, which is the
  lexicographic order `pathLt` below.
* `uuid::Uuid` values are opaque identifiers; they are modelled as `Nat`,
  drawn from a `supply : Nat → Nat` (one fresh draw per call of
  `Uuid::new_v4()`).
* `BTreeMap` is modelled as an association list kept strictly sorted by key;
  `mapInsert` mirrors `BTreeMap::insert` (replacing the value when the key is
  already present), `mapLookup` mirrors `BTreeMap::get`.
* The `ignore` crate's directory walker is an external collaborator: its
  output is taken as an input `walk : List (Path × Bool)`, one entry per
  yielded path together with the result of `file_type().is_file()`.
  Filesystem reads (`std::fs::read_to_string`) are an input
  `readFile : Path → Option String`.
* Rust `Result`/`?` is modelled by `Except Err`; a `panic!` / `.unwrap()`
  abort is modelled by a dedicated `Err` constructor, so that the two failure
  modes stay distinguishable.
-/

namespace MdbookFiles

/-- A filesystem path as its list of components (mirrors `Utf8PathBuf`). -/
abbrev Path := List String

/-- Opaque identifier (mirrors `uuid::Uuid`), modelled as a natural. -/
abbrev Uuid := Nat

/-- Failure modes of the engine.  `noFiles` is the `bail!("No files matched")`
of `Instance::files`; `unwrapPanic` is the `.unwrap()` on the missing default
file in `Instance::events`; `indexPanic` is an out-of-bounds `uuids[0]`;
`insertPanic` is the `panic!("entry exists")` of `TreeNode::insert`;
`stripRootFail` is a failing `Utf8Path::strip_prefix` in `Instance::left`;
`rootIsFile` is the `bail!("root node cannot be file")` of `TreeNode::render`;
`readFail p` is a failing `std::fs::read_to_string(p)` in `Instance::right`. -/
inductive Err where
  | noFiles
  | unwrapPanic
  | indexPanic
  | insertPanic
  | stripRootFail
  | rootIsFile
  | readFail (p : Path)
deriving DecidableEq

/-- Strict order on `Char` (unicode scalar value order, as in Rust). -/
def charLt (a b : Char) : Bool :=
  decide (a < b)

/-- Lexicographic strict order on lists induced by a strict order on
elements; this is how Rust compares `str` (element = byte/char) and how
`Utf8Path` compares paths (element = component). -/
def lexLtWith (lt : α → α → Bool) : List α → List α → Bool
  | [], [] => false
  | [], _ :: _ => true
  | _ :: _, [] => false
  | a :: as, b :: bs => if lt a b then true else if lt b a then false else lexLtWith lt as bs

/-- Strict order on `String` (mirrors `Ord` on Rust `String`). -/
def strLt (a b : String) : Bool :=
  lexLtWith charLt a.data b.data

/-- Strict order on paths: component-wise lexicographic (mirrors `Ord` on
`Utf8PathBuf`). -/
def pathLt (a b : Path) : Bool :=
  lexLtWith strLt a b

/-- The three properties of a strict total order that the proofs need, for a
boolean comparison function. -/
structure StrictB (α : Type) (lt : α → α → Bool) : Prop where
  irrefl : ∀ a, lt a a = false
  trans : ∀ a b c, lt a b = true → lt b c = true → lt a c = true
  conn : ∀ a b, lt a b = false → lt b a = false → a = b

/-- The `FilesMap` of `src/lib.rs` (`BTreeMap<Utf8PathBuf, Uuid>`), as a
sorted association list. -/
abbrev FilesMap := List (Path × Uuid)

/-- `BTreeMap::insert`: insert at the sorted position, replacing the value if
the key is already present. -/
def mapInsert (k : Path) (v : Uuid) : FilesMap → FilesMap
  | [] => [(k, v)]
  | (k', v') :: rest =>
    if pathLt k k' then (k, v) :: (k', v') :: rest
    else if pathLt k' k then (k', v') :: mapInsert k v rest
    else (k, v) :: rest

/-- `BTreeMap::get`. -/
def mapLookup (k : Path) : FilesMap → Option Uuid
  | [] => none
  | (k', v) :: rest => if k = k' then some v else mapLookup k rest

/-- Keys strictly ascending: the representation invariant of `BTreeMap`
iteration order. -/
def mapSorted (m : FilesMap) : Prop :=
  List.Chain' (fun a b => pathLt a.1 b.1 = true) m

/-- The collection loop of `Instance::files` (src/lib.rs lines 220–225): fold
over the walker's yield, keeping the full yielded path of every entry whose
file type is a file, and pairing it with a fresh identifier
(`Uuid::new_v4()`, modelled as `supply i` with `i` counting the draws). -/
def collectFiles (supply : Nat → Uuid) : List (Path × Bool) → Nat → FilesMap → FilesMap
  | [], _, acc => acc
  | e :: rest, i, acc =>
    if e.2 then collectFiles supply rest (i + 1) (mapInsert e.1 (supply i) acc)
    else collectFiles supply rest i acc

/-- `Instance::files` (src/lib.rs lines 193–233), with the walker already
executed: collect the file entries, then `bail!("No files matched")` when the
map is empty, otherwise return the map.  (Policy compilation and walking
itself belong to the external `ignore` crate; a walk that failed never
reaches this point.) -/
def filesFn (walk : List (Path × Bool)) (supply : Nat → Uuid) : Except Err FilesMap :=
  let paths := collectFiles supply walk 0 []
  if paths = [] then .error .noFiles else .ok paths

/-- The tree of `src/lib.rs` lines 119–123: a directory maps path segments to
subtrees (`BTreeMap<String, TreeNode>`, modelled as a sorted association
list), a file holds its identifier. -/
inductive TreeNode where
  | directory (files : List (String × TreeNode))
  | file (uuid : Uuid)

/-- `BTreeMap::get` on a directory's children. -/
def lookupNode (k : String) : List (String × TreeNode) → Option TreeNode
  | [] => none
  | (k', v) :: rest => if k = k' then some v else lookupNode k rest

/-- `BTreeMap::insert` on a directory's children (replaces the value when the
key is present). -/
def strInsert (k : String) (v : TreeNode) : List (String × TreeNode) → List (String × TreeNode)
  | [] => [(k, v)]
  | (k', v') :: rest =>
    if strLt k k' then (k, v) :: (k', v') :: rest
    else if strLt k' k then (k', v') :: strInsert k v rest
    else (k, v) :: rest

/-- `TreeNode::insert` (src/lib.rs lines 132–145).  The Rust function
returns `()` and can panic; the panics are modelled by `none`:

* a one-segment path inserts a `File` via `BTreeMap::insert`, silently
  replacing whatever node already sits at that segment;
* a longer path recurses through `entry(..).or_default()`, so hitting an
  existing `File` node panics with "entry exists" (`none` here);
* an empty path indexes `path[0]` out of bounds and panics (`none` here). -/
def TreeNode.insertPath : TreeNode → List String → Uuid → Option TreeNode
  | .directory files, [p], u => some (.directory (strInsert p (.file u) files))
  | .directory files, p :: q :: rest, u =>
    match ((lookupNode p files).getD (.directory [])).insertPath (q :: rest) u with
    | none => none
    | some c => some (.directory (strInsert p c files))
  | .directory _, [], _ => none
  | .file _, _, _ => none

mutual

/-- The leaves of a tree: every (path from this node, identifier) pair. -/
def TreeNode.leaves : TreeNode → List (List String × Uuid)
  | .file u => [([], u)]
  | .directory files => leavesList files

/-- Leaves contributed by a directory's children, in child order. -/
def leavesList : List (String × TreeNode) → List (List String × Uuid)
  | [] => []
  | (k, c) :: rest => (c.leaves.map (fun pu => (k :: pu.1, pu.2))) ++ leavesList rest

end

/-- Children keys strictly ascending: the `BTreeMap` representation
invariant. -/
def keysSorted (files : List (String × TreeNode)) : Prop :=
  List.Chain' (fun a b => strLt a b = true) (files.map Prod.fst)

mutual

/-- Structural invariant of every tree the engine builds: children maps are
sorted, and every child subtree is itself well formed and contributes at
least one leaf. -/
def goodNode : TreeNode → Prop
  | .file _ => True
  | .directory files => keysSorted files ∧ goodChildren files

/-- The children part of `goodNode`. -/
def goodChildren : List (String × TreeNode) → Prop
  | [] => True
  | (_, c) :: rest => goodNode c ∧ c.leaves ≠ [] ∧ goodChildren rest

end

mutual

/-- The loop body of `TreeNode::render_files` (src/lib.rs lines 156–163):
children are emitted in map (key-sorted) order. -/
def renderList : List (String × TreeNode) → String
  | [] => ""
  | (name, node) :: rest => node.renderInner name ++ renderList rest

/-- `TreeNode::render_inner` (src/lib.rs lines 165–183): a file is a
clickable list item addressed by its identifier and labelled with its leaf
name, a directory is a folder item with a nested list. -/
def TreeNode.renderInner : TreeNode → String → String
  | .file u, name =>
    "<li id=\"button-" ++ toString u ++ "\" class=\"mdbook-files-button\">" ++ name ++ "</li>"
  | .directory files, name =>
    "<li class=\"mdbook-files-folder\"><span>" ++ name ++ "/</span>"
      ++ ("<ul>" ++ renderList files ++ "</ul>") ++ "</li>"

end

/-- `TreeNode::render_files` (src/lib.rs lines 156–163). -/
def renderFiles (files : List (String × TreeNode)) : String :=
  "<ul>" ++ renderList files ++ "</ul>"

/-- `TreeNode::render` (src/lib.rs lines 147–154): rendering a bare `File`
root is the fatal `bail!("root node cannot be file")`. -/
def TreeNode.render : TreeNode → Except Err String
  | .file _ => .error .rootIsFile
  | .directory files => .ok (renderFiles files)

/-- The loop of `Instance::left` (src/lib.rs lines 240–245): strip the
enumeration root off each stored path (`strip_prefix`, whose failure the `?`
propagates) and insert the remaining components into the tree
(`TreeNode::insert`, whose panic is `Err.insertPanic` here). -/
def buildLeft (parent : Path) : FilesMap → TreeNode → Except Err TreeNode
  | [], t => .ok t
  | (p, uu) :: rest, t =>
    if parent.isPrefixOf p then
      match t.insertPath (p.drop parent.length) uu with
      | some t2 => buildLeft parent rest t2
      | none => .error .insertPanic
    else .error .stripRootFail

/-- `Instance::left` (src/lib.rs lines 235–251). -/
def leftFn (parent : Path) (m : FilesMap) : Except Err String :=
  match buildLeft parent m (.directory []) with
  | .error e => .error e
  | .ok root =>
    match root.render with
    | .error e => .error e
    | .ok list => .ok ("<div class=\"mdbook-files-left\">" ++ list ++ "</div>")

/-- `Utf8Path::extension` semantics on a file name: the portion after the
final dot, except that a name with no dot, or whose only dot is the leading
character (a hidden file), has no extension. -/
def extOfName (n : String) : Option String :=
  match n.data with
  | [] => none
  | _ :: cs =>
    if cs.contains '.' then
      some ((cs.reverse.takeWhile (fun d => d != '.')).reverse.asString)
    else none

/-- `Utf8Path::extension`: the extension of the last path component. -/
def pathExt (p : Path) : Option String :=
  match p.getLast? with
  | none => none
  | some n => extOfName n

/-- `pulldown_cmark::Event`, restricted to the constructors the engine
emits: raw HTML, fenced-code-block start/end (carrying the language tag of
`CodeBlockKind::Fenced`), text, and a hard break. -/
inductive Event where
  | html (s : String)
  | startCode (tag : String)
  | text (s : String)
  | endCode (tag : String)
  | hardBreak
deriving DecidableEq

/-- The open tag of one content pane of `Instance::right`: addressed by the
file's identifier and marked `visible`. -/
def paneOpen (u : Uuid) : String :=
  "<div id=\"file-" ++ toString u ++ "\" class=\"mdbook-file visible\">"

/-- The per-file loop of `Instance::right` (src/lib.rs lines 259–274): read
the file (fatal on failure), tag a fenced code block with the extension
(empty string when there is none), and wrap it in a visible pane addressed
by the file's identifier. -/
def panes (readFile : Path → Option String) : FilesMap → Except Err (List Event)
  | [] => .ok []
  | (p, uu) :: rest =>
    match readFile p with
    | none => .error (.readFail p)
    | some contents =>
      match panes readFile rest with
      | .error e => .error e
      | .ok tl =>
        .ok ([.html (paneOpen uu),
              .startCode ((pathExt p).getD ""),
              .text contents,
              .endCode ((pathExt p).getD ""),
              .html "</div>"] ++ tl)

/-- `Instance::right` (src/lib.rs lines 253–278). -/
def rightFn (readFile : Path → Option String) (m : FilesMap) : Except Err (List Event) :=
  match panes readFile m with
  | .error e => .error e
  | .ok ps =>
    .ok ([Event.html "<div class=\"mdbook-files-right\">"] ++ ps ++ [Event.html "</div>"])

/-- The fields of the `Files` descriptor (src/lib.rs lines 21–99) that the
post-walk pipeline reads.  The traversal switches configure the external
walker and are absorbed into the `walk` input. -/
structure FilesData where
  path : Path
  defaultFile : Option Path
  height : Option String

/-- `Instance::events` (src/lib.rs lines 280–316).  `prefixP` is the
configured book prefix, `parent` is `Instance::parent` (prefix joined with
the descriptor path), `render` is the Tera `script` template (an external
collaborator, abstracted as a function of the identifier list and the
visible identifier), `selfUuid` is the instance's own identifier.

The visible-identifier computation mirrors lines 298–302: a configured
default file is looked up at `parent.join(file)` and `.unwrap()`ped
(`Err.unwrapPanic` on `None`), otherwise `uuids[0]` is taken
(`Err.indexPanic` when out of bounds). -/
def eventsFn (prefixP : Path) (data : FilesData) (selfUuid : Uuid)
    (render : List Uuid → Uuid → String) (readFile : Path → Option String)
    (walk : List (Path × Bool)) (supply : Nat → Uuid) : Except Err (List Event) :=
  match filesFn walk supply with
  | .error e => .error e
  | .ok paths =>
    match leftFn (prefixP ++ data.path) paths with
    | .error e => .error e
    | .ok leftHtml =>
      match rightFn readFile paths with
      | .error e => .error e
      | .ok rightEvs =>
        match (match data.defaultFile with
               | some file =>
                 match mapLookup ((prefixP ++ data.path) ++ file) paths with
                 | some uu => Except.ok uu
                 | none => Except.error Err.unwrapPanic
               | none =>
                 match (paths.map (fun e : Path × Uuid => e.2))[0]? with
                 | some uu => Except.ok uu
                 | none => Except.error Err.indexPanic) with
        | .error e => .error e
        | .ok visible =>
          .ok ([Event.html ("<div id=\"files-" ++ toString selfUuid
                  ++ "\" class=\"mdbook-files\" style=\"height: "
                  ++ data.height.getD "300px" ++ ";\">"),
                Event.html leftHtml] ++ rightEvs ++
               [Event.html "</div>",
                Event.html ("<script>" ++ render (paths.map (fun e : Path × Uuid => e.2)) visible ++ "</script>"),
                Event.hardBreak])

/-- `mdbook::BookItem` / `Chapter`: a chapter carries its name, raw content,
section number, sub-items, source paths and parent names; the other variants
carry no chapters. -/
inductive BookItem where
  | chapter (name : String) (content : String) (number : Option (List Nat))
      (subItems : List BookItem) (path : Option String) (sourcePath : Option String)
      (parentNames : List String)
  | separator
  | partTitle (title : String)

mutual

/-- `Context::map_book_item` (src/lib.rs lines 329–336) together with
`Context::map_chapter` (lines 351–358), abstracted over the content
transformation `f` (`Context::map_markdown`): a chapter's content is mapped
by `f`, its sub-items are mapped recursively, every other field is moved
unchanged; non-chapter items pass through untouched. -/
def mapBookItem (f : String → Except String String) : BookItem → Except String BookItem
  | .chapter name content number subItems path sourcePath parentNames =>
    match f content with
    | .error e => .error e
    | .ok content2 =>
      match mapBookItems f subItems with
      | .error e => .error e
      | .ok subItems2 =>
        .ok (.chapter name content2 number subItems2 path sourcePath parentNames)
  | .separator => .ok .separator
  | .partTitle t => .ok (.partTitle t)

/-- The `map`/`collect` over sub-items in `Context::map_chapter`. -/
def mapBookItems (f : String → Except String String) : List BookItem → Except String (List BookItem)
  | [] => .ok []
  | i :: is =>
    match mapBookItem f i with
    | .error e => .error e
    | .ok i2 =>
      match mapBookItems f is with
      | .error e => .error e
      | .ok is2 => .ok (i2 :: is2)

end

/-- Extract the raw-HTML payloads of an event stream. -/
def htmlOf : Event → Option String
  | .html s => some s
  | _ => none

/-- Extract the language tags of the code-block start events of a stream. -/
def startTagOf : Event → Option String
  | .startCode t => some t
  | _ => none

/-- Extract the text payloads of an event stream. -/
def textOf : Event → Option String
  | .text s => some s
  | _ => none

/-- Whether a result is the out-of-bounds `uuids[0]` panic. -/
def isIndexPanic : Except Err (List Event) → Bool
  | .error .indexPanic => true
  | _ => false

theorem StrictB.asymm {lt : α → α → Bool} (h : StrictB α lt) {a b : α}
    (hab : lt a b = true) : lt b a = false := by
  by_contra hba
  have := h.trans a b a hab (by revert hba; cases lt b a <;> simp)
  simp [h.irrefl a] at this

theorem charLt_strict : StrictB Char charLt := by
  constructor
  · intro a
    simp [charLt]
  · intro a b c hab hbc
    simp only [charLt, decide_eq_true_eq] at *
    exact lt_trans hab hbc
  · intro a b hab hba
    simp only [charLt, decide_eq_false_iff_not] at *
    exact le_antisymm (not_lt.mp hba) (not_lt.mp hab)

theorem lexLtWith_strict {lt : α → α → Bool} (h : StrictB α lt) :
    StrictB (List α) (lexLtWith lt) := by
  constructor
  · intro l
    induction l with
    | nil => simp [lexLtWith]
    | cons a as ih => simp [lexLtWith, h.irrefl a, ih]
  · intro l1
    induction l1 with
    | nil =>
      intro l2 l3 h12 h23
      cases l2 with
      | nil => simp [lexLtWith] at h12
      | cons b bs =>
        cases l3 with
        | nil => simp [lexLtWith] at h23
        | cons c cs => simp [lexLtWith]
    | cons a as ih =>
      intro l2 l3 h12 h23
      cases l2 with
      | nil => simp [lexLtWith] at h12
      | cons b bs =>
        cases l3 with
        | nil => simp [lexLtWith] at h23
        | cons c cs =>
          simp only [lexLtWith] at h12 h23 ⊢
          by_cases hab : lt a b = true
          · simp only [hab, if_true] at h12
            by_cases hbc : lt b c = true
            · simp [h.trans a b c hab hbc]
            · have hcb : lt c b = false := by
                by_contra hcb
                simp [hbc, (by revert hcb; cases lt c b <;> simp : lt c b = true)] at h23
              have : b = c := h.conn b c (by revert hbc; cases lt b c <;> simp) hcb
              subst this
              simp [hab]
          · have hab' : lt a b = false := by revert hab; cases lt a b <;> simp
            have hba : lt b a = false := by
              by_contra hba
              simp [hab', (by revert hba; cases lt b a <;> simp : lt b a = true)] at h12
            have : a = b := h.conn a b hab' hba
            subst this
            simp only [hab', if_false, h.irrefl a, if_true] at h12 ⊢
            by_cases hac : lt a c = true
            · simp [hac]
            · have hac' : lt a c = false := by revert hac; cases lt a c <;> simp
              simp only [hac', if_false] at h23 ⊢
              by_cases hca : lt c a = true
              · simp [hca] at h23
              · have hca' : lt c a = false := by revert hca; cases lt c a <;> simp
                have : a = c := h.conn a c hac' hca'
                subst this
                simp only [hca', if_false] at h23 ⊢
                exact ih bs cs h12 h23
  · intro l1
    induction l1 with
    | nil =>
      intro l2 h12 h21
      cases l2 with
      | nil => rfl
      | cons b bs => simp [lexLtWith] at h12
    | cons a as ih =>
      intro l2 h12 h21
      cases l2 with
      | nil => simp [lexLtWith] at h21
      | cons b bs =>
        simp only [lexLtWith] at h12 h21
        by_cases hab : lt a b = true
        · simp [hab] at h12
        · have hab' : lt a b = false := by revert hab; cases lt a b <;> simp
          by_cases hba : lt b a = true
          · simp [hba] at h21
          · have hba' : lt b a = false := by revert hba; cases lt b a <;> simp
            have hkey : a = b := h.conn a b hab' hba'
            subst hkey
            simp only [hab', if_false] at h12 h21
            have : as = bs := ih bs h12 h21
            rw [this]

theorem strLt_strict : StrictB String strLt := by
  have hl := lexLtWith_strict charLt_strict
  constructor
  · intro a
    exact hl.irrefl a.data
  · intro a b c hab hbc
    exact hl.trans a.data b.data c.data hab hbc
  · intro a b hab hba
    exact String.ext (hl.conn a.data b.data hab hba)

theorem pathLt_strict : StrictB Path pathLt := by
  exact lexLtWith_strict strLt_strict

theorem mapInsert_ne_nil (k : Path) (v : Uuid) (m : FilesMap) :
    mapInsert k v m ≠ [] := by
  cases m with
  | nil => simp [mapInsert]
  | cons e rest =>
    obtain ⟨k', v'⟩ := e
    simp only [mapInsert]
    split
    · simp
    · split <;> simp

theorem mapInsert_keys_mem (k : Path) (v : Uuid) (m : FilesMap) (p : Path) :
    (∃ u, (p, u) ∈ mapInsert k v m) ↔ p = k ∨ ∃ u, (p, u) ∈ m := by
  induction m with
  | nil =>
    simp [mapInsert]
  | cons e rest ih =>
    obtain ⟨k', v'⟩ := e
    simp only [mapInsert]
    split
    · constructor
      · rintro ⟨u, hu⟩
        rcases List.mem_cons.mp hu with h | h
        · left
          exact congrArg Prod.fst h
        · right
          exact ⟨u, h⟩
      · rintro (rfl | ⟨u, hu⟩)
        · exact ⟨v, List.mem_cons_self _ _⟩
        · exact ⟨u, List.mem_cons_of_mem _ hu⟩
    · split
      · constructor
        · rintro ⟨u, hu⟩
          rcases List.mem_cons.mp hu with h | h
          · right
            exact ⟨u, by rw [h]; exact List.mem_cons_self _ _⟩
          · rcases (ih.mp ⟨u, h⟩) with h' | ⟨u', hu'⟩
            · left
              exact h'
            · right
              exact ⟨u', List.mem_cons_of_mem _ hu'⟩
        · rintro (rfl | ⟨u, hu⟩)
          · obtain ⟨u, hu⟩ := ih.mpr (Or.inl rfl)
            exact ⟨u, List.mem_cons_of_mem _ hu⟩
          · rcases List.mem_cons.mp hu with h | h
            · exact ⟨u, by rw [h]; exact List.mem_cons_self _ _⟩
            · obtain ⟨u', hu'⟩ := ih.mpr (Or.inr ⟨u, h⟩)
              exact ⟨u', List.mem_cons_of_mem _ hu'⟩
      · have hkk : k = k' := by
          apply pathLt_strict.conn k k'
          · revert ‹¬pathLt k k' = true›
            cases pathLt k k' <;> simp
          · revert ‹¬pathLt k' k = true›
            cases pathLt k' k <;> simp
        subst hkk
        constructor
        · rintro ⟨u, hu⟩
          rcases List.mem_cons.mp hu with h | h
          · left
            exact congrArg Prod.fst h
          · right
            exact ⟨u, List.mem_cons_of_mem _ h⟩
        · rintro (rfl | ⟨u, hu⟩)
          · exact ⟨v, List.mem_cons_self _ _⟩
          · rcases List.mem_cons.mp hu with h | h
            · exact ⟨v, by
                have : p = k := congrArg Prod.fst h
                rw [this]
                exact List.mem_cons_self _ _⟩
            · exact ⟨u, List.mem_cons_of_mem _ h⟩

theorem mapSorted_pairwise (m : FilesMap) (hs : mapSorted m) :
    List.Pairwise (fun a b => pathLt a.1 b.1 = true) m := by
  haveI : IsTrans (Path × Uuid) (fun a b => pathLt a.1 b.1 = true) :=
    ⟨fun a b c hab hbc => pathLt_strict.trans _ _ _ hab hbc⟩
  exact List.chain'_iff_pairwise.mp hs

theorem mapInsert_sorted (k : Path) (v : Uuid) (m : FilesMap)
    (hs : mapSorted m) : mapSorted (mapInsert k v m) := by
  induction m with
  | nil =>
    simp [mapInsert, mapSorted]
  | cons e rest ih =>
    obtain ⟨k', v'⟩ := e
    have hrest : mapSorted rest := (List.chain'_cons'.mp hs).2
    simp only [mapInsert]
    split
    · exact List.Chain'.cons (by assumption) hs
    · split
      · have hins := ih hrest
        apply List.chain'_cons'.mpr
        refine ⟨?_, hins⟩
        intro z hz
        have hzmem : ∃ u, (z.1, u) ∈ mapInsert k v rest :=
          ⟨z.2, List.mem_of_mem_head? hz⟩
        rcases (mapInsert_keys_mem k v rest z.1).mp hzmem with h | ⟨u, hu⟩
        · rw [h]
          assumption
        · have hpair := mapSorted_pairwise _ hs
          exact (List.pairwise_cons.mp hpair).1 ⟨z.1, u⟩ hu
      · have hkk : k = k' := by
          apply pathLt_strict.conn k k'
          · revert ‹¬pathLt k k' = true›
            cases pathLt k k' <;> simp
          · revert ‹¬pathLt k' k = true›
            cases pathLt k' k <;> simp
        subst hkk
        apply List.chain'_cons'.mpr
        refine ⟨?_, hrest⟩
        intro y hy
        rcases List.chain'_cons'.mp hs with ⟨hhead, _⟩
        exact hhead y hy

theorem collectFiles_sorted (supply : Nat → Uuid) :
    ∀ (walk : List (Path × Bool)) (i : Nat) (acc : FilesMap),
      mapSorted acc → mapSorted (collectFiles supply walk i acc) := by
  intro walk
  induction walk with
  | nil =>
    intro i acc hacc
    simpa [collectFiles] using hacc
  | cons e rest ih =>
    intro i acc hacc
    simp only [collectFiles]
    split
    · exact ih _ _ (mapInsert_sorted _ _ _ hacc)
    · exact ih _ _ hacc

theorem collectFiles_keys (supply : Nat → Uuid) :
    ∀ (walk : List (Path × Bool)) (i : Nat) (acc : FilesMap) (p : Path),
      (∃ u, (p, u) ∈ collectFiles supply walk i acc) ↔
        (p, true) ∈ walk ∨ ∃ u, (p, u) ∈ acc := by
  intro walk
  induction walk with
  | nil =>
    intro i acc p
    simp [collectFiles]
  | cons e rest ih =>
    intro i acc p
    obtain ⟨q, b⟩ := e
    cases b with
    | true =>
      simp only [collectFiles, if_true]
      rw [ih]
      rw [mapInsert_keys_mem]
      constructor
      · rintro (h | rfl | h)
        · exact Or.inl (List.mem_cons_of_mem _ h)
        · exact Or.inl (List.mem_cons_self _ _)
        · exact Or.inr h
      · rintro (h | h)
        · rcases List.mem_cons.mp h with h' | h'
          · right
            left
            exact (Prod.mk.injEq _ _ _ _ ▸ h').1.symm ▸ rfl
          · exact Or.inl h'
        · exact Or.inr (Or.inr h)
    | false =>
      simp only [collectFiles]
      rw [if_neg (by simp)]
      rw [ih]
      constructor
      · rintro (h | h)
        · exact Or.inl (List.mem_cons_of_mem _ h)
        · exact Or.inr h
      · rintro (h | h)
        · rcases List.mem_cons.mp h with h' | h'
          · exact absurd (congrArg Prod.snd h') (by simp)
          · exact Or.inl h'
        · exact Or.inr h

theorem collectFiles_no_file (supply : Nat → Uuid) :
    ∀ (walk : List (Path × Bool)) (i : Nat) (acc : FilesMap),
      (∀ e ∈ walk, e.2 = false) → collectFiles supply walk i acc = acc := by
  intro walk
  induction walk with
  | nil =>
    intro i acc _
    rfl
  | cons e rest ih =>
    intro i acc h
    have he : e.2 = false := h e (List.mem_cons_self _ _)
    simp only [collectFiles, he, if_false]
    exact ih _ _ (fun e' he' => h e' (List.mem_cons_of_mem _ he'))

theorem filesFn_sorted (walk : List (Path × Bool)) (supply : Nat → Uuid)
    (m : FilesMap) (h : filesFn walk supply = .ok m) : mapSorted m := by
  simp only [filesFn] at h
  split at h
  · exact absurd h (by simp)
  · have : m = collectFiles supply walk 0 [] := by
      cases h
      rfl
    rw [this]
    exact collectFiles_sorted supply walk 0 [] (by simp [mapSorted])

theorem filesFn_ok_ne_nil (walk : List (Path × Bool)) (supply : Nat → Uuid)
    (m : FilesMap) (h : filesFn walk supply = .ok m) : m ≠ [] := by
  simp only [filesFn] at h
  split at h
  · exact absurd h (by simp)
  · have hm : m = collectFiles supply walk 0 [] := by
      cases h
      rfl
    rw [hm]
    assumption

theorem filesFn_keys (walk : List (Path × Bool)) (supply : Nat → Uuid)
    (m : FilesMap) (h : filesFn walk supply = .ok m) (p : Path) :
    (∃ u, (p, u) ∈ m) ↔ (p, true) ∈ walk := by
  simp only [filesFn] at h
  split at h
  · exact absurd h (by simp)
  · have hm : m = collectFiles supply walk 0 [] := by
      cases h
      rfl
    rw [hm, collectFiles_keys]
    simp

theorem leavesList_append (l1 l2 : List (String × TreeNode)) :
    leavesList (l1 ++ l2) = leavesList l1 ++ leavesList l2 := by
  induction l1 with
  | nil => simp [leavesList]
  | cons e rest ih =>
    obtain ⟨k, c⟩ := e
    simp [leavesList, ih]

theorem leavesList_perm {l1 l2 : List (String × TreeNode)} (h : l1.Perm l2) :
    (leavesList l1).Perm (leavesList l2) := by
  induction h with
  | nil => exact List.Perm.refl _
  | cons x _ ih =>
    obtain ⟨k, c⟩ := x
    simp only [leavesList]
    exact List.Perm.append_left _ ih
  | swap x y l =>
    obtain ⟨k1, c1⟩ := x
    obtain ⟨k2, c2⟩ := y
    simp only [leavesList, ← List.append_assoc]
    exact List.Perm.append_right _ (List.perm_append_comm)
  | trans _ _ ih1 ih2 => exact ih1.trans ih2

theorem lookupNode_mem {k : String} {l : List (String × TreeNode)} {c : TreeNode}
    (h : lookupNode k l = some c) : (k, c) ∈ l := by
  induction l with
  | nil => simp [lookupNode] at h
  | cons e rest ih =>
    obtain ⟨k', v'⟩ := e
    simp only [lookupNode] at h
    split at h
    · have hk : k = k' := by assumption
      have hc : c = v' := by
        cases h
        rfl
      rw [hk, hc]
      exact List.mem_cons_self _ _
    · exact List.mem_cons_of_mem _ (ih h)

theorem lookupNode_none_not_mem {k : String} {l : List (String × TreeNode)}
    (h : lookupNode k l = none) : ∀ c, (k, c) ∉ l := by
  induction l with
  | nil => simp
  | cons e rest ih =>
    obtain ⟨k', v'⟩ := e
    simp only [lookupNode] at h
    split at h
    · exact absurd h (by simp)
    · intro c hc
      rcases List.mem_cons.mp hc with h' | h'
      · exact absurd (congrArg Prod.fst h') (by simpa using (by assumption : ¬k = k'))
      · exact ih h c h'

theorem strInsert_perm_of_none {k : String} (v : TreeNode) {l : List (String × TreeNode)}
    (h : lookupNode k l = none) : (strInsert k v l).Perm ((k, v) :: l) := by
  induction l with
  | nil => simp [strInsert]
  | cons e rest ih =>
    obtain ⟨k', v'⟩ := e
    simp only [lookupNode] at h
    split at h
    · exact absurd h (by simp)
    · simp only [strInsert]
      split
      · exact List.Perm.refl _
      · split
        · exact (List.Perm.cons _ (ih h)).trans (List.Perm.swap _ _ _)
        · have : k = k' := strLt_strict.conn k k'
            (by revert ‹¬strLt k k' = true›; cases strLt k k' <;> simp)
            (by revert ‹¬strLt k' k = true›; cases strLt k' k <;> simp)
          exact absurd this (by assumption)

theorem strInsert_keys_mem (k k2 : String) (v : TreeNode) (l : List (String × TreeNode)) :
    k2 ∈ (strInsert k v l).map Prod.fst ↔ k2 = k ∨ k2 ∈ l.map Prod.fst := by
  induction l with
  | nil => simp [strInsert]
  | cons e rest ih =>
    obtain ⟨k', v'⟩ := e
    simp only [strInsert]
    split
    · simp
    · split
      · simp only [List.map_cons, List.mem_cons, ih]
        tauto
      · have hkk : k = k' := strLt_strict.conn k k'
          (by revert ‹¬strLt k k' = true›; cases strLt k k' <;> simp)
          (by revert ‹¬strLt k' k = true›; cases strLt k' k <;> simp)
        subst hkk
        simp

theorem keysSorted_pairwise {l : List (String × TreeNode)} (hs : keysSorted l) :
    List.Pairwise (fun a b => strLt a b = true) (l.map Prod.fst) := by
  haveI : IsTrans String (fun a b => strLt a b = true) :=
    ⟨fun a b c hab hbc => strLt_strict.trans _ _ _ hab hbc⟩
  exact List.chain'_iff_pairwise.mp hs

theorem strInsert_sorted (k : String) (v : TreeNode) (l : List (String × TreeNode))
    (hs : keysSorted l) : keysSorted (strInsert k v l) := by
  induction l with
  | nil => simp [strInsert, keysSorted]
  | cons e rest ih =>
    obtain ⟨k', v'⟩ := e
    have hrest : keysSorted rest := by
      have := (List.chain'_cons'.mp (by simpa [keysSorted] using hs)).2
      simpa [keysSorted] using this
    simp only [strInsert]
    split
    · simp only [keysSorted, List.map_cons]
      exact List.Chain'.cons (by assumption) (by simpa [keysSorted] using hs)
    · split
      · have hins := ih hrest
        simp only [keysSorted, List.map_cons]
        apply List.chain'_cons'.mpr
        refine ⟨?_, by simpa [keysSorted] using hins⟩
        intro z hz
        have hzmem : z ∈ (strInsert k v rest).map Prod.fst :=
          List.mem_of_mem_head? hz
        rcases (strInsert_keys_mem k z v rest).mp hzmem with rfl | hmem
        · assumption
        · have hpair := keysSorted_pairwise hs
          simp only [List.map_cons] at hpair
          exact (List.pairwise_cons.mp hpair).1 z hmem
      · have hkk : k = k' := strLt_strict.conn k k'
          (by revert ‹¬strLt k k' = true›; cases strLt k k' <;> simp)
          (by revert ‹¬strLt k' k = true›; cases strLt k' k <;> simp)
        subst hkk
        simp only [keysSorted, List.map_cons] at hs ⊢
        exact List.chain'_cons'.mpr (List.chain'_cons'.mp hs)

theorem strInsert_replace {k : String} {c : TreeNode} {l : List (String × TreeNode)}
    (v : TreeNode) (hs : keysSorted l) (h : lookupNode k l = some c) :
    ∃ pre post, l = pre ++ (k, c) :: post ∧ strInsert k v l = pre ++ (k, v) :: post := by
  induction l with
  | nil => simp [lookupNode] at h
  | cons e rest ih =>
    obtain ⟨k', v'⟩ := e
    have hrest : keysSorted rest := by
      have := (List.chain'_cons'.mp (by simpa [keysSorted] using hs)).2
      simpa [keysSorted] using this
    simp only [lookupNode] at h
    split at h
    · have hk : k = k' := by assumption
      have hc : v' = c := by
        cases h
        rfl
      subst hk
      subst hc
      refine ⟨[], rest, by simp, ?_⟩
      simp only [strInsert, strLt_strict.irrefl k]
      simp
    · have hmem : (k, c) ∈ rest := lookupNode_mem h
      have hk2 : k ∈ rest.map Prod.fst := List.mem_map_of_mem _ hmem
      have hlt : strLt k' k = true := by
        have hpair := keysSorted_pairwise hs
        simp only [List.map_cons] at hpair
        exact (List.pairwise_cons.mp hpair).1 k hk2
      obtain ⟨pre, post, hl, hins⟩ := ih hrest h
      refine ⟨(k', v') :: pre, post, by simp [hl], ?_⟩
      simp only [strInsert, strLt_strict.asymm hlt]
      simp [hlt, hins]

theorem goodChildren_mem {l : List (String × TreeNode)} {k : String} {c : TreeNode}
    (hg : goodChildren l) (hmem : (k, c) ∈ l) : goodNode c ∧ c.leaves ≠ [] := by
  induction l with
  | nil => simp at hmem
  | cons e rest ih =>
    obtain ⟨k', v'⟩ := e
    simp only [goodChildren] at hg
    rcases List.mem_cons.mp hmem with h' | h'
    · have : c = v' := congrArg Prod.snd h'
      rw [this]
      exact ⟨hg.1, hg.2.1⟩
    · exact ih hg.2.2 h'

theorem goodChildren_strInsert {l : List (String × TreeNode)} (k : String) {v : TreeNode}
    (hg : goodChildren l) (hv : goodNode v) (hne : v.leaves ≠ []) :
    goodChildren (strInsert k v l) := by
  induction l with
  | nil => exact ⟨hv, hne, trivial⟩
  | cons e rest ih =>
    obtain ⟨k', v'⟩ := e
    simp only [goodChildren] at hg
    simp only [strInsert]
    split
    · exact ⟨hv, hne, hg.1, hg.2.1, hg.2.2⟩
    · split
      · exact ⟨hg.1, hg.2.1, ih hg.2.2⟩
      · exact ⟨hv, hne, hg.2.2⟩

theorem goodChildren_append_iff (l1 l2 : List (String × TreeNode)) :
    goodChildren (l1 ++ l2) ↔ goodChildren l1 ∧ goodChildren l2 := by
  induction l1 with
  | nil => simp [goodChildren]
  | cons e rest ih =>
    obtain ⟨k, c⟩ := e
    simp only [List.cons_append, goodChildren, ih]
    tauto

theorem leaves_mem_of_child {l : List (String × TreeNode)} {k : String} {c : TreeNode}
    (hmem : (k, c) ∈ l) {pu : List String × Uuid} (hpu : pu ∈ c.leaves) :
    (k :: pu.1, pu.2) ∈ leavesList l := by
  induction l with
  | nil => simp at hmem
  | cons e rest ih =>
    obtain ⟨k', v'⟩ := e
    simp only [leavesList, List.mem_append]
    rcases List.mem_cons.mp hmem with h' | h'
    · left
      have hk : k = k' := congrArg Prod.fst h'
      have hc : c = v' := congrArg Prod.snd h'
      subst hk
      subst hc
      exact List.mem_map_of_mem _ hpu
    · right
      exact ih h'

theorem cons_prefix_iff (a : α) (l1 l2 : List α) :
    (a :: l1 <+: a :: l2) ↔ l1 <+: l2 := by
  constructor
  · rintro ⟨t, ht⟩
    refine ⟨t, ?_⟩
    simpa using ht
  · rintro ⟨t, ht⟩
    exact ⟨t, by simp [ht]⟩

theorem keysSorted_congr {l1 l2 : List (String × TreeNode)}
    (h : l1.map Prod.fst = l2.map Prod.fst) (hs : keysSorted l1) : keysSorted l2 := by
  simp only [keysSorted] at hs ⊢
  rw [← h]
  exact hs

theorem perm_ne_nil_of_cons {l : List (List String × Uuid)} {e : List String × Uuid}
    {l2 : List (List String × Uuid)} (h : l.Perm (e :: l2)) : l ≠ [] := by
  intro hnil
  rw [hnil] at h
  exact absurd h.symm.eq_nil (by simp)

theorem insertPath_ok (u : Uuid) :
    ∀ (p : List String) (files : List (String × TreeNode)),
      p ≠ [] →
      goodNode (.directory files) →
      (∀ q ∈ leavesList files, ¬ p <+: q.1 ∧ ¬ q.1 <+: p) →
      ∃ fs2, (TreeNode.directory files).insertPath p u = some (.directory fs2) ∧
        goodNode (.directory fs2) ∧
        (leavesList fs2).Perm ((p, u) :: leavesList files) := by
  intro p
  induction p with
  | nil =>
    intro files hne _ _
    exact absurd rfl hne
  | cons x rest ih =>
    intro files _ hgood hsep
    simp only [goodNode] at hgood
    obtain ⟨hks, hgc⟩ := hgood
    cases rest with
    | nil =>
      have hlook : lookupNode x files = none := by
        cases hl : lookupNode x files with
        | none => rfl
        | some c =>
          have hmem := lookupNode_mem hl
          have hgc2 := goodChildren_mem hgc hmem
          obtain ⟨pu, hpu⟩ := List.exists_mem_of_ne_nil _ hgc2.2
          have hlf := leaves_mem_of_child hmem hpu
          have := (hsep _ hlf).1
          exact absurd ⟨pu.1, rfl⟩ this
      refine ⟨strInsert x (.file u) files, by simp [TreeNode.insertPath], ?_, ?_⟩
      · refine ⟨strInsert_sorted _ _ _ hks, ?_⟩
        exact goodChildren_strInsert x hgc trivial (by simp [TreeNode.leaves])
      · have hperm := leavesList_perm (strInsert_perm_of_none (TreeNode.file u) hlook)
        simpa [leavesList, TreeNode.leaves] using hperm
    | cons y rest2 =>
      cases hl : lookupNode x files with
      | some c =>
        cases c with
        | file w =>
          have hmem := lookupNode_mem hl
          have hpu : (([], w) : List String × Uuid) ∈ (TreeNode.file w).leaves := by
            simp [TreeNode.leaves]
          have hlf := leaves_mem_of_child hmem hpu
          have := (hsep _ hlf).2
          exact absurd ⟨y :: rest2, rfl⟩ this
        | directory cf =>
          have hmem := lookupNode_mem hl
          have hgc2 := goodChildren_mem hgc hmem
          have hsep2 : ∀ q ∈ leavesList cf, ¬ (y :: rest2) <+: q.1 ∧ ¬ q.1 <+: (y :: rest2) := by
            intro q hq
            have hlf := leaves_mem_of_child hmem hq
            have h2 := hsep _ hlf
            constructor
            · intro hc
              exact h2.1 ((cons_prefix_iff x _ _).mpr hc)
            · intro hc
              exact h2.2 ((cons_prefix_iff x _ _).mpr hc)
          obtain ⟨fs2, hins, hgood2, hperm⟩ := ih cf (by simp) (by simpa [goodNode] using hgc2.1) hsep2
          obtain ⟨pre, post, hfiles, hinsrep⟩ := strInsert_replace (TreeNode.directory fs2) hks hl
          refine ⟨strInsert x (.directory fs2) files, ?_, ?_, ?_⟩
          · simp only [TreeNode.insertPath, hl, Option.getD_some, hins]
          · refine ⟨?_, ?_⟩
            · apply keysSorted_congr _ hks
              rw [hinsrep, hfiles]
              simp
            · rw [hinsrep]
              rw [hfiles] at hgc
              rw [goodChildren_append_iff] at hgc ⊢
              refine ⟨hgc.1, hgood2, ?_, hgc.2.2.2⟩
              simpa [TreeNode.leaves] using perm_ne_nil_of_cons hperm
          · rw [hinsrep, hfiles]
            have hmap : ((leavesList fs2).map (fun pu => (x :: pu.1, pu.2))).Perm
                ((x :: y :: rest2, u) :: (leavesList cf).map (fun pu => (x :: pu.1, pu.2))) := by
              simpa using hperm.map (fun pu => (x :: pu.1, pu.2))
            have h1 : leavesList (pre ++ (x, TreeNode.directory fs2) :: post)
                = leavesList pre ++ ((leavesList fs2).map (fun pu => (x :: pu.1, pu.2)) ++ leavesList post) := by
              simp [leavesList_append, leavesList, TreeNode.leaves]
            have h2 : leavesList (pre ++ (x, TreeNode.directory cf) :: post)
                = leavesList pre ++ ((leavesList cf).map (fun pu => (x :: pu.1, pu.2)) ++ leavesList post) := by
              simp [leavesList_append, leavesList, TreeNode.leaves]
            rw [h1, h2]
            have hstep1 : (leavesList pre ++ ((leavesList fs2).map (fun pu => (x :: pu.1, pu.2)) ++ leavesList post)).Perm
                (leavesList pre ++ (((x :: y :: rest2, u) :: (leavesList cf).map (fun pu => (x :: pu.1, pu.2))) ++ leavesList post)) :=
              List.Perm.append_left _ (List.Perm.append_right _ hmap)
            have hstep2 : (leavesList pre ++ (((x :: y :: rest2, u) :: (leavesList cf).map (fun pu => (x :: pu.1, pu.2))) ++ leavesList post)).Perm
                ((x :: y :: rest2, u) :: (leavesList pre ++ ((leavesList cf).map (fun pu => (x :: pu.1, pu.2)) ++ leavesList post))) := by
              simp only [List.cons_append]
              exact List.perm_middle
            exact hstep1.trans hstep2
      | none =>
        obtain ⟨fs2, hins, hgood2, hperm⟩ := ih [] (by simp)
          (by simp [goodNode, keysSorted, goodChildren]) (by simp [leavesList])
        refine ⟨strInsert x (.directory fs2) files, ?_, ?_, ?_⟩
        · simp only [TreeNode.insertPath, hl, Option.getD_none, hins]
        · refine ⟨strInsert_sorted _ _ _ hks, ?_⟩
          apply goodChildren_strInsert x hgc (by simpa [goodNode] using hgood2)
          simpa [TreeNode.leaves] using perm_ne_nil_of_cons hperm
        · have hmap : ((leavesList fs2).map (fun pu => (x :: pu.1, pu.2))).Perm
              [(x :: y :: rest2, u)] := by
            simpa [leavesList] using hperm.map (fun pu => (x :: pu.1, pu.2))
          have hp1 : (leavesList (strInsert x (.directory fs2) files)).Perm
              (leavesList ((x, TreeNode.directory fs2) :: files)) :=
            leavesList_perm (strInsert_perm_of_none (TreeNode.directory fs2) hl)
          have hp2 : leavesList ((x, TreeNode.directory fs2) :: files)
              = (leavesList fs2).map (fun pu => (x :: pu.1, pu.2)) ++ leavesList files := by
            simp [leavesList, TreeNode.leaves]
          have hp3 : ((leavesList fs2).map (fun pu => (x :: pu.1, pu.2)) ++ leavesList files).Perm
              ((x :: y :: rest2, u) :: leavesList files) := by
            simpa using List.Perm.append_right (leavesList files) hmap
          rw [hp2] at hp1
          exact hp1.trans hp3

theorem buildLeft_ok (parent : Path) :
    ∀ (m : FilesMap) (files : List (String × TreeNode)),
      goodNode (.directory files) →
      (∀ e ∈ m, parent.isPrefixOf e.1 = true) →
      (∀ e ∈ m, e.1.drop parent.length ≠ []) →
      List.Pairwise (fun a b => ¬ a.1.drop parent.length <+: b.1.drop parent.length ∧
        ¬ b.1.drop parent.length <+: a.1.drop parent.length) m →
      (∀ e ∈ m, ∀ q ∈ leavesList files, ¬ e.1.drop parent.length <+: q.1 ∧
        ¬ q.1 <+: e.1.drop parent.length) →
      ∃ fs2, buildLeft parent m (.directory files) = .ok (.directory fs2) ∧
        goodNode (.directory fs2) ∧
        (leavesList fs2).Perm
          ((m.map (fun e => (e.1.drop parent.length, e.2))) ++ leavesList files) := by
  intro m
  induction m with
  | nil =>
    intro files hgood _ _ _ _
    exact ⟨files, rfl, hgood, by simp [TreeNode.leaves]⟩
  | cons e rest ih =>
    intro files hgood hpre hnn hpw hsep
    obtain ⟨p, uu⟩ := e
    obtain ⟨fs1, hins, hgood1, hperm1⟩ := insertPath_ok uu (p.drop parent.length) files
      (hnn _ (List.mem_cons_self _ _)) hgood
      (fun q hq => hsep _ (List.mem_cons_self _ _) q hq)
    have hsep2 : ∀ e2 ∈ rest, ∀ q ∈ leavesList fs1,
        ¬ e2.1.drop parent.length <+: q.1 ∧ ¬ q.1 <+: e2.1.drop parent.length := by
      intro e2 he2 q hq
      have hq2 : q ∈ ((p.drop parent.length, uu) : List String × Uuid) :: leavesList files :=
        hperm1.mem_iff.mp hq
      rcases List.mem_cons.mp hq2 with h' | h'
      · have hr := (List.pairwise_cons.mp hpw).1 e2 he2
        rw [h']
        exact ⟨hr.2, hr.1⟩
      · exact hsep e2 (List.mem_cons_of_mem _ he2) q h'
    obtain ⟨fs2, hbuild, hgood2, hperm2⟩ := ih fs1 hgood1
      (fun e2 he2 => hpre e2 (List.mem_cons_of_mem _ he2))
      (fun e2 he2 => hnn e2 (List.mem_cons_of_mem _ he2))
      (List.pairwise_cons.mp hpw).2 hsep2
    refine ⟨fs2, ?_, hgood2, ?_⟩
    · simp only [buildLeft, hpre _ (List.mem_cons_self _ _), if_true, hins]
      exact hbuild
    · have hstep1 : (leavesList fs2).Perm
          ((rest.map (fun e2 => (e2.1.drop parent.length, e2.2)))
            ++ (((p.drop parent.length, uu) : List String × Uuid) :: leavesList files)) :=
        hperm2.trans (List.Perm.append_left _ hperm1)
      have hstep2 : ((rest.map (fun e2 => (e2.1.drop parent.length, e2.2)))
            ++ (((p.drop parent.length, uu) : List String × Uuid) :: leavesList files)).Perm
          (((p.drop parent.length, uu) : List String × Uuid)
            :: ((rest.map (fun e2 => (e2.1.drop parent.length, e2.2))) ++ leavesList files)) :=
        List.perm_middle
      simpa using hstep1.trans hstep2

theorem filesFn_error (walk : List (Path × Bool)) (supply : Nat → Uuid) (e : Err)
    (h : filesFn walk supply = .error e) : e = .noFiles := by
  simp only [filesFn] at h
  split at h
  · cases h
    rfl
  · exact absurd h (by simp)

theorem buildLeft_error (parent : Path) :
    ∀ (m : FilesMap) (t : TreeNode) (e : Err), buildLeft parent m t = .error e →
      e = .insertPanic ∨ e = .stripRootFail := by
  intro m
  induction m with
  | nil =>
    intro t e h
    exact absurd h (by simp [buildLeft])
  | cons hd rest ih =>
    intro t e h
    obtain ⟨p, uu⟩ := hd
    simp only [buildLeft] at h
    split at h
    · split at h
      · exact ih _ e h
      · cases h
        exact Or.inl rfl
    · cases h
      exact Or.inr rfl

theorem leftFn_error (parent : Path) (m : FilesMap) (e : Err)
    (h : leftFn parent m = .error e) :
    e = .insertPanic ∨ e = .stripRootFail ∨ e = .rootIsFile := by
  simp only [leftFn] at h
  split at h
  · cases h
    rcases buildLeft_error parent m _ _ (by assumption) with h' | h'
    · exact Or.inl h'
    · exact Or.inr (Or.inl h')
  · split at h
    · cases h
      rename_i root hroot err herr
      cases root with
      | file u =>
        simp only [TreeNode.render] at herr
        cases herr
        exact Or.inr (Or.inr rfl)
      | directory files => simp [TreeNode.render] at herr
    · exact absurd h (by simp)

theorem panes_error (readFile : Path → Option String) :
    ∀ (m : FilesMap) (e : Err), panes readFile m = .error e → ∃ p, e = .readFail p := by
  intro m
  induction m with
  | nil =>
    intro e h
    exact absurd h (by simp [panes])
  | cons hd rest ih =>
    intro e h
    obtain ⟨p, uu⟩ := hd
    simp only [panes] at h
    split at h
    · cases h
      exact ⟨p, rfl⟩
    · split at h
      · cases h
        exact ih _ (by assumption)
      · exact absurd h (by simp)

theorem rightFn_error (readFile : Path → Option String) (m : FilesMap) (e : Err)
    (h : rightFn readFile m = .error e) : ∃ p, e = .readFail p := by
  simp only [rightFn] at h
  split at h
  · cases h
    exact panes_error readFile m e (by assumption)
  · exact absurd h (by simp)

theorem lookupNode_strInsert_self (k : String) (v : TreeNode) :
    ∀ l : List (String × TreeNode), lookupNode k (strInsert k v l) = some v := by
  intro l
  induction l with
  | nil => simp [strInsert, lookupNode]
  | cons hd rest ih =>
    obtain ⟨k', v'⟩ := hd
    simp only [strInsert]
    split
    · simp [lookupNode]
    · split
      · have hne : ¬ k = k' := by
          intro hk
          subst hk
          rename_i hlt
          simp [strLt_strict.irrefl k] at hlt
        simp [lookupNode, hne, ih]
      · simp [lookupNode]

theorem panes_content (readFile : Path → Option String) :
    ∀ m : FilesMap, (∀ e ∈ m, (readFile e.1).isSome = true) →
      ∃ ps, panes readFile m = .ok ps ∧
        ps.filterMap htmlOf = (m.map (fun e => [paneOpen e.2, "</div>"])).flatten ∧
        ps.filterMap startTagOf = m.map (fun e => (pathExt e.1).getD "") ∧
        ps.filterMap textOf = m.map (fun e => (readFile e.1).getD "") := by
  intro m
  induction m with
  | nil =>
    intro _
    exact ⟨[], rfl, by simp, by simp, by simp⟩
  | cons hd rest ih =>
    intro h
    obtain ⟨p, uu⟩ := hd
    obtain ⟨c, hc⟩ := Option.isSome_iff_exists.mp (h _ (List.mem_cons_self _ _))
    obtain ⟨tl, htl, hhtml, htag, htext⟩ := ih (fun e he => h e (List.mem_cons_of_mem _ he))
    refine ⟨[Event.html (paneOpen uu), Event.startCode ((pathExt p).getD ""), Event.text c,
             Event.endCode ((pathExt p).getD ""), Event.html "</div>"] ++ tl, ?_, ?_, ?_, ?_⟩
    · simp only [panes, hc, htl]
    · simp [List.filterMap_append, htmlOf, hhtml, startTagOf, textOf]
    · simp [List.filterMap_append, htmlOf, htag, startTagOf, textOf]
    · simp [List.filterMap_append, htmlOf, htext, startTagOf, textOf, hc]

/-- Claim C1: for every policy whose enumeration yields zero matching files,
`Instance::files` fails with the fatal "No files matched" error, no widget
markup is produced by `Instance::events`, and `files` never returns an empty
mapping as a successful result. -/
theorem claimC1 (walk : List (Path × Bool)) (supply : Nat → Uuid)
    (prefixP : Path) (data : FilesData) (selfUuid : Uuid)
    (render : List Uuid → Uuid → String) (readFile : Path → Option String) :
    ((∀ e ∈ walk, e.2 = false) →
      filesFn walk supply = .error .noFiles ∧
      eventsFn prefixP data selfUuid render readFile walk supply = .error .noFiles) ∧
    (∀ m, filesFn walk supply = .ok m → 0 < m.length) := by
  constructor
  · intro h
    have hcf := collectFiles_no_file supply walk 0 [] h
    have hfiles : filesFn walk supply = .error .noFiles := by
      simp [filesFn, hcf]
    exact ⟨hfiles, by simp [eventsFn, hfiles]⟩
  · intro m hm
    have := filesFn_ok_ne_nil walk supply m hm
    cases m with
    | nil => exact absurd rfl this
    | cons e rest => simp

/-- Witness for C1: a walk yielding only a directory entry makes `files` and
`events` fail with the "No files matched" error, and a successful map is
non-empty. -/
theorem claimC1_witness :
    (filesFn [((["book", "src"] : Path), false)] (fun _ => 0) = .error .noFiles ∧
      eventsFn [] ⟨["src"], none, none⟩ 0 (fun _ _ => "") (fun _ => none)
        [((["book", "src"] : Path), false)] (fun _ => 0) = .error .noFiles) ∧
    0 < ([((["book", "a.rs"] : Path), 7)] : FilesMap).length :=
  ⟨(claimC1 [((["book", "src"] : Path), false)] (fun _ => 0) [] ⟨["src"], none, none⟩ 0
      (fun _ _ => "") (fun _ => none)).1 (by decide),
   (claimC1 [((["book", "a.rs"] : Path), true)] (fun _ => 7) [] ⟨["src"], none, none⟩ 0
      (fun _ _ => "") (fun _ => none)).2 [((["book", "a.rs"] : Path), 7)] rfl⟩

/-- Claim C2: on every successful run, exactly one identifier is passed to
the activation-script template as the default-visible one: the identifier
the map holds for `parent.join(default_file)` when a default file is
configured, and otherwise the identifier of the lexicographically first
enumerated path (the head of the key-sorted map, strictly below every other
key). -/
theorem claimC2 (prefixP : Path) (data : FilesData) (selfUuid : Uuid)
    (render : List Uuid → Uuid → String) (readFile : Path → Option String)
    (walk : List (Path × Bool)) (supply : Nat → Uuid)
    (h : (eventsFn prefixP data selfUuid render readFile walk supply).isOk = true) :
    ∃ m visible pre,
      filesFn walk supply = .ok m ∧
      eventsFn prefixP data selfUuid render readFile walk supply
        = .ok (pre ++ [Event.html ("<script>"
            ++ render (m.map (fun e => e.2)) visible ++ "</script>"), Event.hardBreak]) ∧
      (∀ f, data.defaultFile = some f →
        mapLookup ((prefixP ++ data.path) ++ f) m = some visible) ∧
      (data.defaultFile = none →
        ∃ p0 rest, m = (p0, visible) :: rest ∧ ∀ e ∈ rest, pathLt p0 e.1 = true) := by
  cases hf : filesFn walk supply with
  | error e =>
    simp only [eventsFn, hf, Except.isOk, Except.toBool] at h
    exact Bool.noConfusion h
  | ok m =>
    cases hleft : leftFn (prefixP ++ data.path) m with
    | error e =>
      simp only [eventsFn, hf, hleft, Except.isOk, Except.toBool] at h
      exact Bool.noConfusion h
    | ok lh =>
      cases hright : rightFn readFile m with
      | error e =>
        simp only [eventsFn, hf, hleft, hright, Except.isOk, Except.toBool] at h
        exact Bool.noConfusion h
      | ok re =>
        cases hdf : data.defaultFile with
        | some f =>
          cases hlk : mapLookup ((prefixP ++ data.path) ++ f) m with
          | none =>
            simp only [eventsFn, hf, hleft, hright, hdf, hlk, Except.isOk, Except.toBool] at h
            exact Bool.noConfusion h
          | some v =>
            refine ⟨m, v,
              [Event.html ("<div id=\"files-" ++ toString selfUuid
                  ++ "\" class=\"mdbook-files\" style=\"height: "
                  ++ data.height.getD "300px" ++ ";\">"),
               Event.html lh] ++ re ++ [Event.html "</div>"], rfl, ?_, ?_, ?_⟩
            · simp only [eventsFn, hf, hleft, hright, hdf, hlk]
              simp
            · intro f2 hf2
              cases hf2
              exact hlk
            · intro hnone
              exact Option.noConfusion hnone
        | none =>
          have hne := filesFn_ok_ne_nil walk supply m hf
          cases m with
          | nil => exact absurd rfl hne
          | cons e0 rest =>
            refine ⟨e0 :: rest, e0.2,
              [Event.html ("<div id=\"files-" ++ toString selfUuid
                  ++ "\" class=\"mdbook-files\" style=\"height: "
                  ++ data.height.getD "300px" ++ ";\">"),
               Event.html lh] ++ re ++ [Event.html "</div>"], rfl, ?_, ?_, ?_⟩
            · simp only [eventsFn, hf, hleft, hright, hdf, List.map_cons,
                List.getElem?_cons_zero]
              simp
            · intro f2 hf2
              exact Option.noConfusion hf2
            · intro _
              refine ⟨e0.1, rest, rfl, ?_⟩
              intro e2 he2
              have hsort := filesFn_sorted walk supply _ hf
              have hpw := mapSorted_pairwise _ hsort
              exact (List.pairwise_cons.mp hpw).1 e2 he2

/-- Claim C3: when a default file is configured but its path is missing from
the enumeration, `Instance::events` aborts (the `.unwrap()` on `None`,
`Err.unwrapPanic` in this model) before the script is rendered, and no
markup is returned — even when enumeration, tree and panes all succeeded. -/
theorem claimC3 (prefixP : Path) (data : FilesData) (selfUuid : Uuid)
    (render : List Uuid → Uuid → String) (readFile : Path → Option String)
    (walk : List (Path × Bool)) (supply : Nat → Uuid) (f : Path) (m : FilesMap)
    (hdf : data.defaultFile = some f)
    (hok : filesFn walk supply = .ok m)
    (hmiss : mapLookup ((prefixP ++ data.path) ++ f) m = none)
    (hleft : (leftFn (prefixP ++ data.path) m).isOk = true)
    (hright : (rightFn readFile m).isOk = true) :
    eventsFn prefixP data selfUuid render readFile walk supply = .error .unwrapPanic := by
  cases hl : leftFn (prefixP ++ data.path) m with
  | error e =>
    rw [hl] at hleft
    simp only [Except.isOk, Except.toBool] at hleft
    exact Bool.noConfusion hleft
  | ok lh =>
    cases hr : rightFn readFile m with
    | error e =>
      rw [hr] at hright
      simp only [Except.isOk, Except.toBool] at hright
      exact Bool.noConfusion hright
    | ok re =>
      simp only [eventsFn, hok, hl, hr, hdf, hmiss]

theorem keys_mem_iff (m : FilesMap) (p : Path) :
    p ∈ m.map Prod.fst ↔ ∃ u, (p, u) ∈ m := by
  rw [List.mem_map]
  constructor
  · rintro ⟨e, he, rfl⟩
    exact ⟨e.2, by simpa using he⟩
  · rintro ⟨u, hu⟩
    exact ⟨(p, u), hu, rfl⟩

/-- Witness for C2: a one-file enumeration with no configured default file;
the script is parameterized with the single identifier, which is the head of
the sorted map. -/
theorem claimC2_witness :
    ∃ m visible pre,
      filesFn [((["d", "a.rs"] : Path), true)] (fun _ => 5) = .ok m ∧
      eventsFn [] ⟨["d"], none, none⟩ 0 (fun _ _ => "S") (fun _ => some "code")
          [((["d", "a.rs"] : Path), true)] (fun _ => 5)
        = .ok (pre ++ [Event.html ("<script>" ++ "S" ++ "</script>"), Event.hardBreak]) ∧
      (∀ f, (none : Option Path) = some f →
        mapLookup (([] ++ ["d"]) ++ f) m = some visible) ∧
      ((none : Option Path) = none →
        ∃ p0 rest, m = (p0, visible) :: rest ∧ ∀ e ∈ rest, pathLt p0 e.1 = true) :=
  claimC2 [] ⟨["d"], none, none⟩ 0 (fun _ _ => "S") (fun _ => some "code")
    [((["d", "a.rs"] : Path), true)] (fun _ => 5) rfl

/-- Witness for C3: default file "b.rs" under root "d" is configured but
only "d/a.rs" was enumerated; left and right panes succeed, yet `events`
aborts with the unwrap panic. -/
theorem claimC3_witness :
    eventsFn [] ⟨["d"], some ["b.rs"], none⟩ 0 (fun _ _ => "S") (fun _ => some "code")
        [((["d", "a.rs"] : Path), true)] (fun _ => 5)
      = .error .unwrapPanic :=
  claimC3 [] ⟨["d"], some ["b.rs"], none⟩ 0 (fun _ _ => "S") (fun _ => some "code")
    [((["d", "a.rs"] : Path), true)] (fun _ => 5) ["b.rs"] [((["d", "a.rs"] : Path), 5)]
    rfl rfl rfl rfl rfl

/-- Claim C4: for every valid non-empty mapping (root below every key,
stripped paths non-empty and pairwise prefix-free), the tree build of
`Instance::left` succeeds and the tree's (leaf path, identifier) pairs are
exactly the root-stripped input mapping — nothing lost, nothing
duplicated. -/
theorem claimC4 (parent : Path) (m : FilesMap)
    (hne : m ≠ [])
    (hpre : ∀ e ∈ m, parent.isPrefixOf e.1 = true)
    (hnn : ∀ e ∈ m, e.1.drop parent.length ≠ [])
    (hpw : List.Pairwise (fun a b => ¬ a.1.drop parent.length <+: b.1.drop parent.length ∧
      ¬ b.1.drop parent.length <+: a.1.drop parent.length) m) :
    ∃ fs2, buildLeft parent m (.directory []) = .ok (.directory fs2) ∧
      (leavesList fs2).Perm (m.map (fun e => (e.1.drop parent.length, e.2))) := by
  obtain ⟨fs2, hb, _, hperm⟩ := buildLeft_ok parent m []
    (by simp [goodNode, keysSorted, goodChildren]) hpre hnn hpw (by simp [leavesList])
  exact ⟨fs2, hb, by simpa [leavesList] using hperm⟩

/-- Witness for C4: the spec's own scenario (`a.rs`, `b/c.rs`, `b/d.txt`
under root `r`). -/
theorem claimC4_witness :
    ∃ fs2, buildLeft ["r"]
        [((["r", "a.rs"] : Path), 1), ((["r", "b", "c.rs"] : Path), 2),
         ((["r", "b", "d.txt"] : Path), 3)] (.directory [])
        = .ok (.directory fs2) ∧
      (leavesList fs2).Perm
        ([((["r", "a.rs"] : Path), 1), ((["r", "b", "c.rs"] : Path), 2),
          ((["r", "b", "d.txt"] : Path), 3)].map
          (fun e => (e.1.drop (["r"] : Path).length, e.2))) :=
  claimC4 ["r"]
    [((["r", "a.rs"] : Path), 1), ((["r", "b", "c.rs"] : Path), 2),
     ((["r", "b", "d.txt"] : Path), 3)]
    (by decide) (by decide) (by decide) (by decide)

/-- Counterexample to claim C5: inserting a file at a path segment already
claimed by a directory node does NOT fail fast — `TreeNode::insert` with a
one-segment path calls `BTreeMap::insert`, which silently replaces the whole
directory subtree with the new file node. -/
theorem claimC5_counterexample :
    (TreeNode.directory [("a", TreeNode.directory [("b", TreeNode.file 7)])]).insertPath ["a"] 9
      = some (TreeNode.directory [("a", TreeNode.file 9)]) := rfl

/-- Claim C5 as amended: inserting *through* a path segment already claimed
by a file node fails fast (the "entry exists" panic, `none` here); but
inserting a file *at* a segment already claimed by a directory node succeeds
and silently replaces that directory. -/
theorem claimC5_amended (files : List (String × TreeNode)) (k q : String)
    (rest : List String) (w u : Uuid) (d : List (String × TreeNode)) :
    (lookupNode k files = some (TreeNode.file w) →
      (TreeNode.directory files).insertPath (k :: q :: rest) u = none) ∧
    (lookupNode k files = some (TreeNode.directory d) →
      (TreeNode.directory files).insertPath [k] u
          = some (TreeNode.directory (strInsert k (TreeNode.file u) files)) ∧
        lookupNode k (strInsert k (TreeNode.file u) files) = some (TreeNode.file u)) := by
  constructor
  · intro h
    simp [TreeNode.insertPath, h]
  · intro _
    exact ⟨by simp [TreeNode.insertPath], lookupNode_strInsert_self k _ files⟩

/-- Witness for the amended C5: inserting through the file at "f" panics;
inserting a file at the directory "a" replaces it. -/
theorem claimC5_witness :
    ((TreeNode.directory [("f", TreeNode.file 3)]).insertPath ["f", "g"] 4 = none) ∧
    ((TreeNode.directory [("a", TreeNode.directory [("b", TreeNode.file 7)])]).insertPath ["a"] 9
        = some (TreeNode.directory (strInsert "a" (TreeNode.file 9)
            [("a", TreeNode.directory [("b", TreeNode.file 7)])])) ∧
      lookupNode "a" (strInsert "a" (TreeNode.file 9)
          [("a", TreeNode.directory [("b", TreeNode.file 7)])]) = some (TreeNode.file 9)) :=
  ⟨(claimC5_amended [("f", TreeNode.file 3)] "f" "g" [] 3 4 []).1 rfl,
   (claimC5_amended [("a", TreeNode.directory [("b", TreeNode.file 7)])] "a" "x" [] 0 9
      [("b", TreeNode.file 7)]).2 rfl⟩

/-- Claim C6: `TreeNode::render` fails fatally (the "root node cannot be
file" bail) whenever the root is a `File`, and succeeds for every
`Directory` root. -/
theorem claimC6 :
    (∀ u : Uuid, TreeNode.render (.file u) = .error .rootIsFile) ∧
    (∀ files : List (String × TreeNode), ∃ s, TreeNode.render (.directory files) = .ok s) :=
  ⟨fun _ => rfl, fun files => ⟨renderFiles files, rfl⟩⟩

/-- Counterexample to claim C7: the enumeration keys are NOT root-stripped.
An enumeration rooted at `book/src` stores the full walker path
`book/src/main.rs` as its key — the stripping happens later, inside
`Instance::left`. -/
theorem claimC7_counterexample :
    filesFn [((["book", "src", "main.rs"] : Path), true)] (fun _ => 0)
        = .ok [((["book", "src", "main.rs"] : Path), 0)] ∧
    ((["book", "src"] : Path) ++ ["main.rs"]) = (["book", "src", "main.rs"] : Path) ∧
    (["book", "src"] : Path).isPrefixOf ["book", "src", "main.rs"] = true ∧
    ((["book", "src", "main.rs"] : Path) == (["main.rs"] : Path)) = false :=
  ⟨rfl, rfl, rfl, rfl⟩

/-- Claim C7 as amended: the mapping's keys are the full paths yielded by
the walker (root-prefixed, not root-stripped); keys are unique, iteration is
strictly ascending in path order, and the key sequence is determined by the
set of file paths alone — identical inputs give identical sequences. -/
theorem claimC7_amended (walk : List (Path × Bool)) (supply : Nat → Uuid) (m : FilesMap)
    (h : filesFn walk supply = .ok m) :
    mapSorted m ∧
    (∀ p, (∃ u, (p, u) ∈ m) ↔ (p, true) ∈ walk) ∧
    (m.map Prod.fst).Nodup ∧
    (∀ walk2 supply2 m2, filesFn walk2 supply2 = .ok m2 →
      (∀ p, (p, true) ∈ walk ↔ (p, true) ∈ walk2) →
      m.map Prod.fst = m2.map Prod.fst) := by
  have hsort := filesFn_sorted walk supply m h
  have hkeys : List.Pairwise (fun a b => pathLt a b = true) (m.map Prod.fst) :=
    (mapSorted_pairwise m hsort).map Prod.fst (fun a b hab => hab)
  have hnd : (m.map Prod.fst).Nodup := by
    refine hkeys.imp ?_
    intro a b hab heq
    rw [heq] at hab
    simp [pathLt_strict.irrefl b] at hab
  refine ⟨hsort, filesFn_keys walk supply m h, hnd, ?_⟩
  intro walk2 supply2 m2 h2 hsame
  have hsort2 := filesFn_sorted walk2 supply2 m2 h2
  have hkeys2 : List.Pairwise (fun a b => pathLt a b = true) (m2.map Prod.fst) :=
    (mapSorted_pairwise m2 hsort2).map Prod.fst (fun a b hab => hab)
  have hnd2 : (m2.map Prod.fst).Nodup := by
    refine hkeys2.imp ?_
    intro a b hab heq
    rw [heq] at hab
    simp [pathLt_strict.irrefl b] at hab
  have hmemiff : ∀ p, p ∈ m.map Prod.fst ↔ p ∈ m2.map Prod.fst := by
    intro p
    rw [keys_mem_iff, keys_mem_iff, filesFn_keys walk supply m h,
      filesFn_keys walk2 supply2 m2 h2]
    exact hsame p
  have hperm : (m.map Prod.fst).Perm (m2.map Prod.fst) :=
    (List.perm_ext_iff_of_nodup hnd hnd2).mpr hmemiff
  haveI : IsAntisymm Path (fun a b => pathLt a b = true) := by
    constructor
    intro a b hab hba
    have := pathLt_strict.asymm hab
    rw [this] at hba
    exact Bool.noConfusion hba
  exact List.eq_of_perm_of_sorted hperm hkeys hkeys2

/-- Witness for the amended C7: a two-file walk, enumerated by two different
runs (different walk order, different identifier supplies) yields the same
sorted, duplicate-free key sequence. -/
theorem claimC7_witness :
    mapSorted [((["a"] : Path), 4), ((["b"] : Path), 3)] ∧
    (∀ p, (∃ u, (p, u) ∈ ([((["a"] : Path), 4), ((["b"] : Path), 3)] : FilesMap)) ↔
      (p, true) ∈ [((["b"] : Path), true), ((["a"] : Path), true)]) ∧
    (([((["a"] : Path), 4), ((["b"] : Path), 3)] : FilesMap).map Prod.fst).Nodup ∧
    (∀ walk2 supply2 m2, filesFn walk2 supply2 = .ok m2 →
      (∀ p, (p, true) ∈ [((["b"] : Path), true), ((["a"] : Path), true)] ↔ (p, true) ∈ walk2) →
      ([((["a"] : Path), 4), ((["b"] : Path), 3)] : FilesMap).map Prod.fst = m2.map Prod.fst) :=
  claimC7_amended [((["b"] : Path), true), ((["a"] : Path), true)] (fun i => 3 + i)
    [((["a"] : Path), 4), ((["b"] : Path), 3)] rfl

/-- Claim C8: when every enumerated file is readable, `Instance::right`
emits, per file and in map order, exactly one pane: an open tag addressed by
the file's identifier carrying the `visible` marker, a code block tagged
with the file's extension (empty string when there is none), and the file's
text. -/
theorem claimC8 (readFile : Path → Option String) (m : FilesMap)
    (h : ∀ e ∈ m, (readFile e.1).isSome = true) :
    ∃ evs, rightFn readFile m = .ok evs ∧
      evs.filterMap htmlOf
        = "<div class=\"mdbook-files-right\">"
            :: ((m.map (fun e => [paneOpen e.2, "</div>"])).flatten ++ ["</div>"]) ∧
      evs.filterMap startTagOf = m.map (fun e => (pathExt e.1).getD "") ∧
      evs.filterMap textOf = m.map (fun e => (readFile e.1).getD "") ∧
      (∀ u : Uuid, paneOpen u
        = "<div id=\"file-" ++ toString u ++ "\" class=\"mdbook-file visible\">") := by
  obtain ⟨ps, hps, hhtml, htag, htext⟩ := panes_content readFile m h
  refine ⟨[Event.html "<div class=\"mdbook-files-right\">"] ++ ps ++ [Event.html "</div>"],
    by simp only [rightFn, hps], ?_, ?_, ?_, fun u => rfl⟩
  · simp [List.filterMap_append, htmlOf, hhtml]
  · simp [List.filterMap_append, startTagOf, htag, htmlOf]
  · simp [List.filterMap_append, textOf, htext, htmlOf]

/-- Witness for C8: two files, one with extension `rs` and one with no
extension at all. -/
theorem claimC8_witness :
    ∃ evs, rightFn (fun _ => some "code")
        [((["a.rs"] : Path), 1), ((["b"] : Path), 2)] = .ok evs ∧
      evs.filterMap htmlOf
        = "<div class=\"mdbook-files-right\">"
            :: ((([((["a.rs"] : Path), 1), ((["b"] : Path), 2)] : FilesMap).map
                  (fun e => [paneOpen e.2, "</div>"])).flatten ++ ["</div>"]) ∧
      evs.filterMap startTagOf
        = ([((["a.rs"] : Path), 1), ((["b"] : Path), 2)] : FilesMap).map
            (fun e => (pathExt e.1).getD "") ∧
      evs.filterMap textOf
        = ([((["a.rs"] : Path), 1), ((["b"] : Path), 2)] : FilesMap).map
            (fun e => ((fun _ => some "code") e.1).getD "") ∧
      (∀ u : Uuid, paneOpen u
        = "<div id=\"file-" ++ toString u ++ "\" class=\"mdbook-file visible\">") :=
  claimC8 (fun _ => some "code") [((["a.rs"] : Path), 1), ((["b"] : Path), 2)] (by decide)

/-- Claim C9: `Context::map_chapter` changes nothing of a chapter except its
content (mapped through the markdown transformation) and its recursively
processed sub-items: name, number, path, source path and parent names all
survive unchanged. -/
theorem claimC9 (f : String → Except String String) (name content : String)
    (number : Option (List Nat)) (subItems : List BookItem)
    (path sourcePath : Option String) (parentNames : List String) (item2 : BookItem)
    (h : mapBookItem f (.chapter name content number subItems path sourcePath parentNames)
      = .ok item2) :
    ∃ content2 subItems2,
      item2 = .chapter name content2 number subItems2 path sourcePath parentNames := by
  simp only [mapBookItem] at h
  split at h
  · exact absurd h (by simp)
  · split at h
    · exact absurd h (by simp)
    · cases h
      exact ⟨_, _, rfl⟩

/-- Witness for C9: a content transformation that appends "!" leaves every
other chapter field intact. -/
theorem claimC9_witness :
    ∃ content2 subItems2,
      (BookItem.chapter "intro" "text!" (some [1]) [BookItem.separator] (some "p") none ["bk"])
        = .chapter "intro" content2 (some [1]) subItems2 (some "p") none ["bk"] :=
  claimC9 (fun s => .ok (s ++ "!")) "intro" "text" (some [1]) [BookItem.separator]
    (some "p") none ["bk"]
    (BookItem.chapter "intro" "text!" (some [1]) [BookItem.separator] (some "p") none ["bk"]) rfl

/-- Claim C10: the `uuids[0]` access in `Instance::events` is always in
bounds — `eventsFn` can fail in several ways, but never with the
out-of-bounds panic, because `files` bails on an empty mapping before the
index is reached. -/
theorem claimC10 (prefixP : Path) (data : FilesData) (selfUuid : Uuid)
    (render : List Uuid → Uuid → String) (readFile : Path → Option String)
    (walk : List (Path × Bool)) (supply : Nat → Uuid) :
    isIndexPanic (eventsFn prefixP data selfUuid render readFile walk supply) = false := by
  cases hf : filesFn walk supply with
  | error e =>
    have he := filesFn_error walk supply e hf
    subst he
    simp [eventsFn, hf, isIndexPanic]
  | ok m =>
    cases hleft : leftFn (prefixP ++ data.path) m with
    | error e =>
      rcases leftFn_error _ _ _ hleft with h' | h' | h' <;> subst h' <;>
        simp [eventsFn, hf, hleft, isIndexPanic]
    | ok lh =>
      cases hright : rightFn readFile m with
      | error e =>
        obtain ⟨p, hp⟩ := rightFn_error _ _ _ hright
        subst hp
        simp [eventsFn, hf, hleft, hright, isIndexPanic]
      | ok re =>
        cases hdf : data.defaultFile with
        | some f =>
          cases hlk : mapLookup ((prefixP ++ data.path) ++ f) m with
          | some v =>
            simp only [eventsFn, hf, hleft, hright, hdf, hlk]
            rfl
          | none =>
            simp only [eventsFn, hf, hleft, hright, hdf, hlk]
            rfl
        | none =>
          have hne := filesFn_ok_ne_nil walk supply m hf
          cases m with
          | nil => exact absurd rfl hne
          | cons e0 rest =>
            simp only [eventsFn, hf, hleft, hright, hdf, List.map_cons,
              List.getElem?_cons_zero]
            rfl

end MdbookFiles

